import Mathlib

/-!
Verification of the ePlant dendrogram/phylogram core: the Newick-style
tree parser (`newickToD3`/`parseNode` in
`src/Eplant/views/TestClusterView/Dendrogram.tsx`, with the
metadata-decorating variant of `zoomplaceholder.tsx`), the d3 cluster
layout used by those components, the leaf-alignment post-processing of
`placeholder.tsx`, the right-angle link generator of
`src/Eplant/views/NavigatorViewer/d3.phylogram.ts`, and the viewport
clamp (`setZoomBounds`).

Strings are modelled as `List Char`; JavaScript numbers that can be `NaN`
or infinite are modelled by `JsNum` (`nan`, `inf`, or a rational).
Recursive tree functions take an explicit fuel argument (structural on
`Nat`) so that every definition is executable by kernel reduction; fuel
larger than the tree height never hits the fuel-exhaustion base case,
and theorems carry a `heightOkF` hypothesis where a generic tree is
involved.
-/

namespace EPlant

/-- whitespace recognised by JavaScript `String.prototype.trim`
(restricted to the ASCII whitespace characters that can occur here). -/
def isWsChar (c : Char) : Bool :=
  c = ' ' || c = '\t' || c = '\n' || c = '\r' || c = '\x0b' || c = '\x0c'

/-- model of JavaScript `str.trim()`: strip leading and trailing whitespace. -/
def trimWs (cs : List Char) : List Char :=
  ((cs.dropWhile isWsChar).reverse.dropWhile isWsChar).reverse

/-- model of JavaScript `str.split(sep)` for a single-character separator:
split at every occurrence, keeping empty fields. -/
def splitAllOn (sep : Char) : List Char → List (List Char)
  | [] => [[]]
  | a :: as =>
    let r := splitAllOn sep as
    if a = sep then [] :: r
    else
      match r with
      | [] => [[a]]
      | h :: t => (a :: h) :: t

/-- a JavaScript number as produced by `parseFloat`: NaN, a signed
infinity, or a finite value (modelled as a rational). -/
inductive JsNum where
  | nan
  | inf (neg : Bool)
  | num (q : ℚ)
deriving DecidableEq

/-- longest leading run of decimal digits, and the rest. -/
def takeDigits : List Char → List Char × List Char
  | [] => ([], [])
  | c :: cs =>
    if c.isDigit then
      let r := takeDigits cs
      (c :: r.1, r.2)
    else ([], c :: cs)

/-- numeric value of a digit string (most significant first). -/
def digitsToNat (ds : List Char) : Nat :=
  ds.foldl (fun a c => a * 10 + (c.toNat - 48)) 0

/-- model of JavaScript `parseFloat`: skip leading whitespace, an optional
sign, then either `Infinity` or a decimal mantissa with an optional
fractional part and an optional exponent; the longest valid prefix is
converted and the rest is ignored, and if no digits at all are found the
result is `NaN`.  This is the ECMAScript `StrDecimalLiteral` grammar. -/
def parseFloatQ (cs : List Char) : JsNum :=
  let t := cs.dropWhile isWsChar
  let sp : Bool × List Char :=
    match t with
    | '+' :: r => (false, r)
    | '-' :: r => (true, r)
    | r => (false, r)
  let neg := sp.1
  let body := sp.2
  if "Infinity".toList.isPrefixOf body then .inf neg
  else
    let ip := takeDigits body
    let fp : List Char × List Char :=
      match ip.2 with
      | '.' :: r => takeDigits r
      | _ => ([], ip.2)
    if ip.1.isEmpty && fp.1.isEmpty then .nan
    else
      let mant : ℚ := (digitsToNat ip.1 : ℚ) + (digitsToNat fp.1 : ℚ) / ((10 : ℚ) ^ fp.1.length)
      let ex : Int :=
        match fp.2 with
        | c :: r =>
          if c = 'e' ∨ c = 'E' then
            let es : Bool × List Char :=
              match r with
              | '+' :: r2 => (false, r2)
              | '-' :: r2 => (true, r2)
              | r2 => (false, r2)
            let ed := (takeDigits es.2).1
            if ed.isEmpty then 0
            else if es.1 then -(digitsToNat ed : Int) else (digitsToNat ed : Int)
          else 0
        | [] => 0
      let v : ℚ := mant * (10 : ℚ) ^ ex
      .num (if neg then -v else v)

/-- the parsed tree node of `newickToD3` (interface `D3Node` in
`Dendrogram.tsx`): a leaf carries `name` and optional `value`; a clade
additionally carries its `children` array (which the code can leave
empty).  A leaf has no `children` field at all, which is why leaves and
clades are separate constructors. -/
inductive D3Node where
  | leaf (name : List Char) (value : Option JsNum)
  | clade (name : List Char) (value : Option JsNum) (children : List D3Node)

/-- the spec's parse-error taxonomy (§7).  The reference parser has a
single `throw new Error("Invalid Newick format")` site, which corresponds
to `MalformedGrammar`; the other two constructors exist so that claims
about them can be stated. -/
inductive ParseError where
  | MalformedGrammar
  | InvalidBranchLength
  | EmptyInput
deriving DecidableEq

/-- index of the first element satisfying `p`, if any. -/
def firstIdxOf (p : Char → Bool) : List Char → Option Nat
  | [] => none
  | c :: cs => if p c then some 0 else (firstIdxOf p cs).map (· + 1)

/-- index of the last element satisfying `p`, if any. -/
def lastIdxOf (p : Char → Bool) : List Char → Option Nat
  | [] => none
  | c :: cs =>
    match lastIdxOf p cs with
    | some i => some (i + 1)
    | none => if p c then some 0 else none

/-- model of the regex match `str.match(/\((.*)\)(.*)/)`: succeeds iff the
string has a `'('` with some `')'` after it; the first group is the text
between the first `'('` and the last `')'`, the second group is the text
after that last `')'`.  (Text before the first `'('` is discarded, as the
regex match is unanchored; `.` is modelled as matching any character,
inputs being single-line Newick strings.) -/
def cladeMatch (cs : List Char) : Option (List Char × List Char) :=
  match firstIdxOf (fun c => c == '(') cs, lastIdxOf (fun c => c == ')') cs with
  | some i, some j =>
    if i < j then some ((cs.take j).drop (i + 1), cs.drop (j + 1)) else none
  | _, _ => none

/-- the child-splitting loop of `parseNode`: scan the clade interior,
tracking parenthesis nesting, and cut at every comma seen at depth 0.
Returns the raw (untrimmed) buffers; the final buffer is always returned
and the caller decides whether to keep it. -/
def splitTopAux : List Char → Int → List Char → List (List Char)
  | [], _, buf => [buf]
  | c :: cs, depth, buf =>
    let d1 : Int := if c = '(' then depth + 1 else depth
    let d2 : Int := if c = ')' then d1 - 1 else d1
    if c = ',' ∧ d2 = 0 then buf :: splitTopAux cs d2 []
    else splitTopAux cs d2 (buf ++ [c])

/-- the child substrings `parseNode` recurses on: every depth-0
comma-separated buffer, trimmed; the final buffer is kept only if its
trimmed form is nonempty (`if (buffer.trim()) children.push(...)`). -/
def childPieces (cs : List Char) : List (List Char) :=
  let segs := (splitTopAux cs 0 []).map trimWs
  match segs.getLast? with
  | some l => if l = [] then segs.dropLast else segs
  | none => segs

/-- name part of a clade trailer: `remainingStr.split(":")[0]`. -/
def trailerName (remaining : List Char) : List Char :=
  (splitAllOn ':' remaining).headD []

/-- clade name assignment `name || "internal"`: an empty name string is
falsy, so unnamed clades get the literal name `internal`. -/
def cladeName (remaining : List Char) : List Char :=
  if trailerName remaining = [] then "internal".toList else trailerName remaining

/-- model of `value: lengthStr ? parseFloat(lengthStr) : undefined` — the length
string is absent when there is no colon, and an empty length string is
falsy. -/
def lengthValue : Option (List Char) → Option JsNum
  | none => none
  | some [] => none
  | some (c :: cs) => some (parseFloatQ (c :: cs))

/-- branch-length of a clade trailer. -/
def trailerValue (remaining : List Char) : Option JsNum :=
  lengthValue (splitAllOn ':' remaining)[1]?

/-- leaf name: `str.split(":")[0]` (no trimming in the `Dendrogram.tsx`
variant; the whole piece was trimmed by the caller). -/
def leafName (cs : List Char) : List Char :=
  (splitAllOn ':' cs).headD []

/-- leaf branch-length. -/
def leafValue (cs : List Char) : Option JsNum :=
  lengthValue (splitAllOn ':' cs)[1]?

/-- parse each child substring in order, stopping at the first error —
exactly the behaviour of the JS loop, where a thrown error aborts the
enclosing calls and no partial tree escapes. -/
def parseChildren (f : List Char → Except ParseError D3Node) :
    List (List Char) → Except ParseError (List D3Node)
  | [] => .ok []
  | p :: ps =>
    match f p with
    | .error e => .error e
    | .ok n =>
      match parseChildren f ps with
      | .error e => .error e
      | .ok ns => .ok (n :: ns)

/-- the `parseNode` of `newickToD3` (`Dendrogram.tsx`), with explicit fuel.
A string without `'('` is a leaf; otherwise the clade regex must match
(else the single `throw`, i.e. `MalformedGrammar`), the interior is split
into child substrings, and each child is parsed recursively. -/
def parseNodeF : Nat → List Char → Except ParseError D3Node
  | 0, _ => .error .MalformedGrammar
  | fuel + 1, cs =>
    if '(' ∈ cs then
      match cladeMatch cs with
      | none => .error .MalformedGrammar
      | some (c, r) =>
        match parseChildren (fun p => parseNodeF fuel p) (childPieces c) with
        | .error e => .error e
        | .ok children => .ok (.clade (cladeName r) (trailerValue r) children)
    else .ok (.leaf (leafName cs) (leafValue cs))

/-- model of `newickString.trim().replace(/;$/, "")`: trim, then drop one trailing
semicolon. -/
def cleanNewick (cs : List Char) : List Char :=
  let t := trimWs cs
  match t.getLast? with
  | some c => if c = ';' then t.dropLast else t
  | none => t

/-- the `newickToD3` of `Dendrogram.tsx`: clean the input and run `parseNode`.
The fuel `length + 1` always suffices because every recursive call is on
a strictly shorter string. -/
def newickToD3 (cs : List Char) : Except ParseError D3Node :=
  let t := cleanNewick cs
  parseNodeF (t.length + 1) t

/-! ## Metadata-decorating parser (`zoomplaceholder.tsx`) -/

/-- the four lookup tables of the service payload (`interface TreeData`),
modelled as partial maps: a JavaScript record access on a missing key is
`undefined`, i.e. `none`. -/
structure TreeData where
  efp_links : List Char → Option (List Char)
  genomes : List Char → Option (List Char)
  SCC_values : List Char → Option ℚ
  sequence_similarity : List Char → Option ℚ

/-- a leaf's `metadata` record. -/
structure MetaRec where
  genome : Option (List Char)
  scc_value : Option ℚ
  sequence_similarity : Option ℚ
  efp_link : Option (List Char)

/-- parsed node of the `zoomplaceholder.tsx` variant of `newickToD3`:
leaves carry a `metadata` record, clades do not. -/
inductive D3MNode where
  | leaf (name : List Char) (value : Option JsNum) (metadata : MetaRec)
  | clade (name : List Char) (value : Option JsNum) (children : List D3MNode)

/-- model of JavaScript `toUpperCase` on the ASCII identifiers used here. -/
def toUpperList (cs : List Char) : List Char :=
  cs.map Char.toUpper

/-- the metadata attached to a leaf: each of the four tables is indexed by
the uppercased clean name; a missing key gives `none`. -/
def metaFor (m : TreeData) (cleanName : List Char) : MetaRec :=
  let u := toUpperList cleanName
  ⟨m.genomes u, m.SCC_values u, m.sequence_similarity u, m.efp_links u⟩

/-- child-list parsing for the metadata variant. -/
def parseChildrenM (f : List Char → Except ParseError D3MNode) :
    List (List Char) → Except ParseError (List D3MNode)
  | [] => .ok []
  | p :: ps =>
    match f p with
    | .error e => .error e
    | .ok n =>
      match parseChildrenM f ps with
      | .error e => .error e
      | .ok ns => .ok (n :: ns)

/-- the `parseNode` of `zoomplaceholder.tsx`: identical grammar handling to
the plain variant, but a leaf's name is trimmed (`name.trim()`) and a
`metadata` record is built from the four lookups keyed by the uppercased
name. -/
def parseNodeMetaF (m : TreeData) : Nat → List Char → Except ParseError D3MNode
  | 0, _ => .error .MalformedGrammar
  | fuel + 1, cs =>
    if '(' ∈ cs then
      match cladeMatch cs with
      | none => .error .MalformedGrammar
      | some (c, r) =>
        match parseChildrenM (fun p => parseNodeMetaF m fuel p) (childPieces c) with
        | .error e => .error e
        | .ok children => .ok (.clade (cladeName r) (trailerValue r) children)
    else
      let cleanName := trimWs (leafName cs)
      .ok (.leaf cleanName (leafValue cs) (metaFor m cleanName))

/-- the `newickToD3` of `zoomplaceholder.tsx`. -/
def newickToD3Meta (m : TreeData) (cs : List Char) : Except ParseError D3MNode :=
  let t := cleanNewick cs
  parseNodeMetaF m (t.length + 1) t

/-- forget the metadata of a parsed tree, keeping name, value and
structure — everything the layout and link geometry can see. -/
def stripMetaF : Nat → D3MNode → D3Node
  | 0, .leaf n v _ => .leaf n v
  | 0, .clade n v _ => .clade n v []
  | _ + 1, .leaf n v _ => .leaf n v
  | fuel + 1, .clade n v cs => .clade n v (cs.map (fun c => stripMetaF fuel c))

/-! ## Hierarchy and d3.cluster layout

`d3.hierarchy` wraps the parsed tree into nodes that the cluster layout
annotates in place with `x` and `y`.  `CNode` is such a node: name (for
identification in theorems), the two coordinates, and children.  The
layout embedding follows the source of `d3-hierarchy`'s `cluster.js`:

first walk (post-order): a leaf gets `x = 0` if it is the first leaf,
otherwise `x = previous + separation(node, previousLeaf)`, and `y = 0`;
an internal node gets `x = mean of children's x` and
`y = 1 + max of children's y`.  Then with `left`/`right` the leftmost and
rightmost leaves, `x0 = left.x - separation(left, right)/2` and
`x1 = right.x + separation(right, left)/2`, a second walk maps every
node by `x ↦ (x - x0)/(x1 - x0) * dx` and
`y ↦ (1 - (root.y ? y/root.y : 1)) * dy` where `dx, dy` are the
`size([dx, dy])` arguments.  The default separation is
`a.parent === b.parent ? 1 : 2`; parents are identified by their position
path from the root. -/

inductive CNode where
  | mk (name : List Char) (x : ℚ) (y : ℚ) (children : List CNode)

def CNode.name : CNode → List Char
  | .mk n _ _ _ => n

def CNode.x : CNode → ℚ
  | .mk _ x _ _ => x

def CNode.y : CNode → ℚ
  | .mk _ _ y _ => y

def CNode.children : CNode → List CNode
  | .mk _ _ _ cs => cs

/-- model of `d3.hierarchy(d3Data)` with the default `d => d.children` accessor:
topology and names are kept, coordinates start at 0.  A clade with an
empty `children` array becomes a hierarchy leaf, exactly as in d3. -/
def toHierarchyF : Nat → D3Node → CNode
  | 0, .leaf n _ => .mk n 0 0 []
  | 0, .clade n _ _ => .mk n 0 0 []
  | _, .leaf n _ => .mk n 0 0 []
  | fuel + 1, .clade n _ cs => .mk n 0 0 (cs.map (fun c => toHierarchyF fuel c))

/-- model of `d3.hierarchy` for the metadata variant (metadata is not consumed by
the layout). -/
def toHierarchyMetaF : Nat → D3MNode → CNode
  | 0, .leaf n _ _ => .mk n 0 0 []
  | 0, .clade n _ _ => .mk n 0 0 []
  | _, .leaf n _ _ => .mk n 0 0 []
  | fuel + 1, .clade n _ cs => .mk n 0 0 (cs.map (fun c => toHierarchyMetaF fuel c))

/-- state of the cluster first walk: the running x counter and the parent
path of the previously visited leaf. -/
structure WalkSt where
  xcur : ℚ
  prev : Option (List Nat)

/-- d3's default separation `(a, b) => a.parent === b.parent ? 1 : 2`,
on parent paths. -/
def sepDefault (p q : List Nat) : ℚ :=
  if p = q then 1 else 2

/-- the `separation(() => 1)` of `placeholder.tsx`. -/
def sepOne (_ _ : List Nat) : ℚ :=
  1

/-- mean of a list of rationals (`meanX` of cluster.js:
`children.reduce((x, c) => x + c.x, 0) / children.length`). -/
def meanQ (l : List ℚ) : ℚ :=
  l.sum / l.length

/-- walk the children of a node left to right, threading the walk state;
child `i` of a node at `path` lives at `path ++ [i]`. -/
def walkChildren (f : CNode → List Nat → WalkSt → CNode × WalkSt) :
    List CNode → List Nat → Nat → WalkSt → List CNode × WalkSt
  | [], _, _, st => ([], st)
  | c :: cs, path, i, st =>
    let r := f c (path ++ [i]) st
    let rs := walkChildren f cs path (i + 1) r.2
    (r.1 :: rs.1, rs.2)

/-- the first walk of cluster.js (`eachAfter`, i.e. post-order with
children left to right). -/
def firstWalkF (sep : List Nat → List Nat → ℚ) :
    Nat → CNode → List Nat → WalkSt → CNode × WalkSt
  | 0, n, _, st => (n, st)
  | fuel + 1, .mk nm _ _ cs, path, st =>
    match cs with
    | [] =>
      let pp := path.dropLast
      match st.prev with
      | none => (.mk nm 0 0 [], ⟨st.xcur, some pp⟩)
      | some q =>
        let nx := st.xcur + sep pp q
        (.mk nm nx 0 [], ⟨nx, some pp⟩)
    | c :: cs' =>
      let r := walkChildren (fun c p s => firstWalkF sep fuel c p s) (c :: cs') path 0 st
      (.mk nm (meanQ (r.1.map CNode.x)) (1 + (r.1.map CNode.y).foldl max 0) r.1, r.2)

/-- the `leafLeft` of cluster.js: follow first children to a leaf, returning it and its
position path. -/
def leafLeftF : Nat → CNode → List Nat → CNode × List Nat
  | 0, n, p => (n, p)
  | fuel + 1, .mk nm x y cs, p =>
    match cs with
    | [] => (.mk nm x y [], p)
    | c :: _ => leafLeftF fuel c (p ++ [0])

/-- the `leafRight` of cluster.js: follow last children to a leaf, returning it and its
position path. -/
def leafRightF : Nat → CNode → List Nat → CNode × List Nat
  | 0, n, p => (n, p)
  | fuel + 1, .mk nm x y cs, p =>
    match cs with
    | [] => (.mk nm x y [], p)
    | c :: cs' => leafRightF fuel (cs'.getLastD c) (p ++ [cs'.length])

/-- apply coordinate maps to every node of the tree (the second walk of
cluster.js applies the same affine maps everywhere). -/
def mapXYF (fx fy : ℚ → ℚ) : Nat → CNode → CNode
  | 0, n => n
  | fuel + 1, .mk nm x y cs => .mk nm (fx x) (fy y) (cs.map (fun c => mapXYF fx fy fuel c))

/-- model of `d3.cluster().size([dx, dy])` applied to a hierarchy root. -/
def clusterF (sep : List Nat → List Nat → ℚ) (fuel : Nat) (dx dy : ℚ) (t : CNode) : CNode :=
  let r := (firstWalkF sep fuel t [] ⟨0, none⟩).1
  let lft := leafLeftF fuel r []
  let rgt := leafRightF fuel r []
  let x0 := lft.1.x - sep lft.2.dropLast rgt.2.dropLast / 2
  let x1 := rgt.1.x + sep rgt.2.dropLast lft.2.dropLast / 2
  let ry := r.y
  mapXYF (fun x => (x - x0) / (x1 - x0) * dx)
    (fun y => (1 - (if ry ≠ 0 then y / ry else 1)) * dy) fuel r

/-- the layout of `Dendrogram.tsx`: `d3.cluster()` with the default
separation, `size([boundsHeight, boundsWidth])`. -/
def dendroLayout (fuel : Nat) (dx dy : ℚ) (t : CNode) : CNode :=
  clusterF sepDefault fuel dx dy t

/-! ## Tree measures and the leaf-alignment post-processing -/

/-- whether the tree's height is < `fuel`; the sufficiency hypothesis
carried by general theorems about fueled tree functions. -/
def heightOkF : Nat → CNode → Bool
  | 0, _ => false
  | fuel + 1, .mk _ _ _ cs => cs.all (fun c => heightOkF fuel c)

/-- the `node.height` of d3.hierarchy: 0 at a leaf, else 1 + max over
children. -/
def heightF : Nat → CNode → Nat
  | 0, _ => 0
  | fuel + 1, .mk _ _ _ cs =>
    match cs with
    | [] => 0
    | _ => 1 + (cs.map (fun c => heightF fuel c)).foldl max 0

/-- all nodes of the tree (`descendants()`), root first. -/
def nodesF : Nat → CNode → List CNode
  | 0, _ => []
  | fuel + 1, .mk nm x y cs => .mk nm x y cs :: (cs.map (fun c => nodesF fuel c)).flatten

/-- all nodes paired with their depth (root at the given start depth). -/
def nodesWithDepthF : Nat → Nat → CNode → List (CNode × Nat)
  | 0, _, _ => []
  | fuel + 1, d, .mk nm x y cs =>
    (.mk nm x y cs, d) :: (cs.map (fun c => nodesWithDepthF fuel (d + 1) c)).flatten

/-- model of `Math.max(...descendants().map(d => d.y))`. -/
def maxDescYF : Nat → CNode → ℚ
  | 0, n => n.y
  | fuel + 1, .mk _ _ y cs => (cs.map (fun c => maxDescYF fuel c)).foldl max y

/-- set every coordinate to 0, keeping names and topology — what the
layout can actually observe of its input. -/
def eraseXYF : Nat → CNode → CNode
  | 0, n => n
  | fuel + 1, .mk nm _ _ cs => .mk nm 0 0 (cs.map (fun c => eraseXYF fuel c))

/-- the leaf-alignment mutation of `placeholder.tsx`: leaves get
`y = maxX`, internal nodes get `y = maxX * depth / height`. -/
def alignF (m : ℚ) (h : Nat) : Nat → Nat → CNode → CNode
  | 0, _, n => n
  | fuel + 1, d, .mk nm x _ cs =>
    match cs with
    | [] => .mk nm x m []
    | _ => .mk nm x (m * ((d : ℚ) / (h : ℚ))) (cs.map (fun c => alignF m h fuel (d + 1) c))

/-- the full `dendrogram` useMemo of `placeholder.tsx`:
`d3.cluster().size([bh*0.8, bw*0.4]).separation(() => 1)` (any `dx, dy`
here), then compute `maxX` over all descendants and re-assign every `y`:
leaves to `maxX`, internal nodes to `maxX * depth / height`. -/
def alignedLayout (fuel : Nat) (dx dy : ℚ) (t : CNode) : CNode :=
  let r := clusterF sepOne fuel dx dy t
  alignF (maxDescYF fuel r) (heightF fuel r) fuel 0 r

/-! ## Viewport transform (`setZoomBounds` of `Dendrogram.tsx`) -/

/-- d3-zoom's transform `{k, x, y}`. -/
structure ZoomTransform where
  k : ℚ
  x : ℚ
  y : ℚ
deriving DecidableEq

/-- d3-zoom's `transform.translate(x, y)`:
`new Transform(k, this.x + this.k * x, this.y + this.k * y)` — it
translates *by* the given amounts (scaled by `k`), it does not set the
translation. -/
def ZoomTransform.translate (t : ZoomTransform) (dx dy : ℚ) : ZoomTransform :=
  ⟨t.k, t.x + t.k * dx, t.y + t.k * dy⟩

/-- the `setZoomBounds` of `Dendrogram.tsx` (and `zoomplaceholder.tsx`):
compute the allowed translation range
`[-(extent*k - padding), padding]` on each axis with `padding = 100`,
clamp the current translation into it, and pass the clamped values to
`transform.translate`. -/
def setZoomBounds (width height : ℚ) (t : ZoomTransform) : ZoomTransform :=
  let padding : ℚ := 100
  let xMin := -(width * t.k - padding)
  let xMax := padding
  let yMin := -(height * t.k - padding)
  let yMax := padding
  t.translate (min xMax (max xMin t.x)) (min yMax (max yMin t.y))

/-! ## Right-angle link generator (`d3.phylogram.ts`) -/

/-- a laid-out point for the diagonal: `x` is the lateral coordinate,
`y` the depth coordinate (the projection renders `y` horizontally). -/
structure PPoint where
  x : ℚ
  y : ℚ
deriving DecidableEq

/-- the projection of `rightAngleDiagonal`: `d => [d.y, d.x]`. -/
def projPoint (d : PPoint) : ℚ × ℚ :=
  (d.y, d.x)

/-- the `rightAngleDiagonal().diagonal` of `d3.phylogram.ts` (and of the
original `d3.phylogram.js`): the path points are the projections of
`[source, {x: target.x, y: source.y}, target]`. -/
def rightAngleDiagonal (source target : PPoint) : List (ℚ × ℚ) :=
  [source, ⟨target.x, source.y⟩, target].map projPoint

/-- Modelled from the spec: the connector the spec describes, whose first
segment "moves along the depth axis from the source point to the target's
depth-axis coordinate" (intermediate point at the source's lateral
coordinate and the target's depth coordinate) and whose second segment
moves along the lateral axis. -/
def specDiagonal (source target : PPoint) : List (ℚ × ℚ) :=
  [source, ⟨source.x, target.y⟩, target].map projPoint

/-! ## Membership in parsed trees -/

/-- whether a parsed node is a clade (has a `children` field). -/
def D3Node.isClade : D3Node → Bool
  | .leaf _ _ => false
  | .clade _ _ _ => true

/-- the name of a parsed node. -/
def D3Node.nodeName : D3Node → List Char
  | .leaf n _ => n
  | .clade n _ _ => n

/-- membership `InD3 n t`: `n` is a node of the parsed tree `t` (itself or inside a
clade's children, recursively). -/
inductive InD3 : D3Node → D3Node → Prop
  | here (t : D3Node) : InD3 t t
  | there (nm : List Char) (v : Option JsNum) (cs : List D3Node) (c n : D3Node) :
      c ∈ cs → InD3 n c → InD3 n (.clade nm v cs)

/-- membership `InD3M n t`: `n` is a node of the metadata-parsed tree `t`. -/
inductive InD3M : D3MNode → D3MNode → Prop
  | here (t : D3MNode) : InD3M t t
  | there (nm : List Char) (v : Option JsNum) (cs : List D3MNode) (c n : D3MNode) :
      c ∈ cs → InD3M n c → InD3M n (.clade nm v cs)

/-! ## Supporting lemmas -/

theorem lastIdxOf_eq_none {p : Char → Bool} {l : List Char}
    (h : ∀ c ∈ l, p c = false) : lastIdxOf p l = none := by
  induction l with
  | nil => rfl
  | cons a as ih =>
    simp only [lastIdxOf, ih (fun c hc => h c (List.mem_cons_of_mem a hc)),
      h a (List.mem_cons_self a as)]
    rfl

/-! ## Claim C1

Unparsable branch-length text is *not* rejected by the parser: the code
calls `parseFloat`, which yields `NaN` for text such as `abc`, and the
`NaN` value is stored in the returned node.  The parse succeeds, so no
`InvalidBranchLength` error is ever raised. -/

/-- C1: the code contradicts the claim — on the input `A:abc` (and inside
a larger tree `(A:abc,B);`) `parse` succeeds and stores `NaN` as the
branch length instead of failing with `InvalidBranchLength`. -/
theorem claim1_invalid_branch_length_becomes_nan :
    newickToD3 "A:abc".toList = .ok (.leaf "A".toList (some .nan))
    ∧ newickToD3 "(A:abc,B);".toList
      = .ok (.clade "internal".toList none
          [.leaf "A".toList (some .nan), .leaf "B".toList none]) :=
  ⟨rfl, rfl⟩

/-! ## Claim C2

An empty clade `()` does *not* fail: the clade regex matches with an
empty interior, the child-splitting loop produces no children (the final
empty buffer is skipped), and the parser returns a clade node with zero
children named `internal`. -/

/-- C2 counterexample: on the input `();` the parser returns a node with
zero children instead of failing with `MalformedGrammar`. -/
theorem claim2_empty_clade_counterexample :
    newickToD3 "();".toList = .ok (.clade "internal".toList none [])
    ∧ newickToD3 "();".toList ≠ .error ParseError.MalformedGrammar := by
  refine ⟨rfl, fun h => ?_⟩
  rw [show newickToD3 "();".toList = .ok (.clade "internal".toList none []) from rfl] at h
  exact Except.noConfusion h

/-- C2 amended: for every input whose clade is `()` followed by a trailer
containing no further `')'`, `parseNode` succeeds and returns a clade
node with zero children (named from the trailer, or `internal`), rather
than failing with `MalformedGrammar`. -/
theorem claim2_empty_clade_returns_zero_children (fuel : Nat) (t : List Char)
    (hr : ')' ∉ t) :
    parseNodeF (fuel + 1) ('(' :: ')' :: t)
      = .ok (.clade (cladeName t) (trailerValue t) []) := by
  have hlast : lastIdxOf (fun c => c == ')') t = none := by
    refine lastIdxOf_eq_none (fun c hc => ?_)
    simp only [beq_eq_false_iff_ne, ne_eq]
    exact fun he => hr (he ▸ hc)
  have hmatch : cladeMatch ('(' :: ')' :: t) = some ([], t) := by
    simp [cladeMatch, firstIdxOf, lastIdxOf, hlast]
  have hmem : '(' ∈ '(' :: ')' :: t := List.mem_cons_self _ _
  simp only [parseNodeF, if_pos hmem, hmatch]
  rfl

/-- C2 witness: the amended theorem at the concrete input `()x`. -/
theorem claim2_empty_clade_witness :
    (')' ∉ "x".toList)
    ∧ parseNodeF 1 ('(' :: ')' :: "x".toList)
        = .ok (.clade (cladeName "x".toList) (trailerValue "x".toList) []) :=
  ⟨by decide, claim2_empty_clade_returns_zero_children 0 "x".toList (by decide)⟩

/-! ## Claim C3

`"(A,B"` has a `'('` but no `')'`, so the clade regex fails and the
parser throws — modelled as `Except.error MalformedGrammar`, which by
construction never carries a partial tree. -/

/-- C3: the malformed input `(A,B` fails with `MalformedGrammar`, and in
general every string that contains `'('` but fails the clade pattern
match is rejected the same way (an `Except.error` result carries no
partial tree). -/
theorem claim3_unbalanced_paren_fails :
    newickToD3 "(A,B".toList = .error ParseError.MalformedGrammar
    ∧ ∀ (fuel : Nat) (cs : List Char), '(' ∈ cs → cladeMatch cs = none →
        parseNodeF (fuel + 1) cs = .error ParseError.MalformedGrammar := by
  refine ⟨rfl, fun fuel cs hmem hnone => ?_⟩
  simp only [parseNodeF, if_pos hmem, hnone]

/-- C3 witness: the generic part applied to the concrete input `(A,B`. -/
theorem claim3_unbalanced_paren_witness :
    ('(' ∈ "(A,B".toList) ∧ cladeMatch "(A,B".toList = none
    ∧ parseNodeF 5 "(A,B".toList = .error ParseError.MalformedGrammar :=
  ⟨by decide, by decide,
    claim3_unbalanced_paren_fails.2 4 "(A,B".toList (by decide) (by decide)⟩

/-! ## Claim C5

`setZoomBounds` computes the clamped translation values but hands them to
d3's `ZoomTransform.translate`, which *adds* `k * value` to the existing
translation instead of replacing it.  The resulting translation escapes
the claimed range `[-(extent*scale - padding), padding]`. -/

/-- C5: the code contradicts the claim — with `width = height = 1000` and
the in-range transform `{k:1, x:100, y:100}`, `setZoomBounds` returns
translation `(200, 200)`, which exceeds the claimed upper bound
`padding = 100`. -/
theorem claim5_translation_escapes_bounds :
    setZoomBounds 1000 1000 ⟨1, 100, 100⟩ = ⟨1, 200, 200⟩
    ∧ ¬((setZoomBounds 1000 1000 ⟨1, 100, 100⟩).x ≤ 100) := by
  constructor
  · show ZoomTransform.mk 1 (100 + 1 * min 100 (max (-(1000 * 1 - 100)) 100))
        (100 + 1 * min 100 (max (-(1000 * 1 - 100)) 100)) = ⟨1, 200, 200⟩
    norm_num
  · show ¬(100 + 1 * min 100 (max (-(1000 * 1 - 100)) 100) ≤ (100 : ℚ))
    norm_num

/-! ## Claim C6

The link generator's intermediate point is `{x: target.x, y: source.y}`:
the first segment keeps the source's depth coordinate and moves to the
target's *lateral* coordinate, and the second segment then moves along
the depth axis — i.e. lateral-first-then-depth, the opposite order of the
claim. -/

/-- C6 counterexample: at source `(x=0, y=0)` and target `(x=10, y=20)`
the generated path differs from the depth-first-then-lateral path the
claim describes. -/
theorem claim6_elbow_order_counterexample :
    rightAngleDiagonal ⟨0, 0⟩ ⟨10, 20⟩ = [(0, 0), (0, 10), (20, 10)]
    ∧ specDiagonal ⟨0, 0⟩ ⟨10, 20⟩ = [(0, 0), (20, 0), (20, 10)]
    ∧ rightAngleDiagonal ⟨0, 0⟩ ⟨10, 20⟩ ≠ specDiagonal ⟨0, 0⟩ ⟨10, 20⟩ :=
  ⟨rfl, rfl, by decide⟩

/-- C6 amended: the generator produces a two-segment right-angled path
whose first segment moves along the *lateral* axis (the depth coordinate
stays at the source's) to the target's lateral coordinate, and whose
second segment moves along the depth axis to the target's depth
coordinate (lateral-first-then-depth).  In projected screen coordinates
(`[d.y, d.x]`), the depth components of the three path points are
`[s.y, s.y, t.y]` and the lateral components are `[s.x, t.x, t.x]`. -/
theorem claim6_elbow_is_lateral_first (s t : PPoint) :
    (rightAngleDiagonal s t).map Prod.fst = [s.y, s.y, t.y]
    ∧ (rightAngleDiagonal s t).map Prod.snd = [s.x, t.x, t.x] :=
  ⟨rfl, rfl⟩

/-! ## Claim C10

Unnamed clades receive the literal name `internal`
(`name || "internal"`), so no internal node of a successfully parsed
tree has an empty name. -/

theorem parseChildren_mem {f : List Char → Except ParseError D3Node} :
    ∀ {ps : List (List Char)} {ns : List D3Node}, parseChildren f ps = .ok ns →
      ∀ c ∈ ns, ∃ p ∈ ps, f p = .ok c := by
  intro ps
  induction ps with
  | nil =>
    intro ns h c hc
    simp only [parseChildren] at h
    injection h with h
    subst h
    exact absurd hc (List.not_mem_nil c)
  | cons p ps ih =>
    intro ns h c hc
    simp only [parseChildren] at h
    cases hf : f p with
    | error e => rw [hf] at h; exact Except.noConfusion h
    | ok n =>
      rw [hf] at h
      cases hrest : parseChildren f ps with
      | error e => rw [hrest] at h; exact Except.noConfusion h
      | ok ns' =>
        rw [hrest] at h
        injection h with h
        subst h
        rcases List.mem_cons.mp hc with rfl | hc2
        · exact ⟨p, List.mem_cons_self _ _, hf⟩
        · obtain ⟨q, hq, hfq⟩ := ih hrest c hc2
          exact ⟨q, List.mem_cons_of_mem _ hq, hfq⟩

theorem cladeName_ne_nil (r : List Char) : cladeName r ≠ [] := by
  unfold cladeName
  split
  · decide
  · assumption

theorem parse_clade_name_ne_nil :
    ∀ (fuel : Nat) (cs : List Char) (t : D3Node), parseNodeF fuel cs = .ok t →
      ∀ n : D3Node, InD3 n t → n.isClade = true → n.nodeName ≠ [] := by
  intro fuel
  induction fuel with
  | zero => intro cs t h; exact Except.noConfusion h
  | succ fuel ih =>
    intro cs t h n hin hcl
    simp only [parseNodeF] at h
    by_cases hmem : '(' ∈ cs
    · rw [if_pos hmem] at h
      cases hcm : cladeMatch cs with
      | none => rw [hcm] at h; exact Except.noConfusion h
      | some cr =>
        rw [hcm] at h
        obtain ⟨c, r⟩ := cr
        simp only [] at h
        cases hpc : parseChildren (fun p => parseNodeF fuel p) (childPieces c) with
        | error e => rw [hpc] at h; exact Except.noConfusion h
        | ok children =>
          rw [hpc] at h
          injection h with h
          subst h
          cases hin with
          | here => exact cladeName_ne_nil r
          | there nm v cs' c' n hc' hin' =>
            obtain ⟨p, hp, hfp⟩ := parseChildren_mem hpc c' hc'
            exact ih p c' hfp n hin' hcl
    · rw [if_neg hmem] at h
      injection h with h
      subst h
      cases hin with
      | here => exact absurd hcl (by simp [D3Node.isClade])

/-- C10: a clade whose trailer has no name part is assigned the literal
name `internal`, and consequently every internal node of a successfully
parsed tree has a nonempty name (the unnamed ones all sharing
`internal`). -/
theorem claim10_unnamed_clades_named_internal :
    (∀ r : List Char, trailerName r = [] → cladeName r = "internal".toList)
    ∧ ∀ (fuel : Nat) (cs : List Char) (t : D3Node), parseNodeF fuel cs = .ok t →
        ∀ n : D3Node, InD3 n t → n.isClade = true → n.nodeName ≠ [] :=
  ⟨fun r hr => by simp [cladeName, hr], parse_clade_name_ne_nil⟩

/-- C10 witness: the empty trailer gets name `internal`, and the root
clade of the parse of `(A,B)` (a clade with empty trailer) has the
nonempty name `internal`. -/
theorem claim10_witness :
    cladeName [] = "internal".toList
    ∧ D3Node.nodeName
        (.clade "internal".toList none [.leaf "A".toList none, .leaf "B".toList none]) ≠ [] :=
  ⟨claim10_unnamed_clades_named_internal.1 [] rfl,
    claim10_unnamed_clades_named_internal.2 6 "(A,B)".toList
      (.clade "internal".toList none [.leaf "A".toList none, .leaf "B".toList none]) rfl
      _ (InD3.here _) rfl⟩

/-! ## Claim C8

A leaf's metadata record is exactly the four lookups applied to the
uppercased leaf name, so a missing key yields an absent (`none`) field;
and the parse result's shape and hierarchy (the only things layout and
link geometry consume) do not depend on the lookup contents at all. -/

theorem parseChildrenM_mem {f : List Char → Except ParseError D3MNode} :
    ∀ {ps : List (List Char)} {ns : List D3MNode}, parseChildrenM f ps = .ok ns →
      ∀ c ∈ ns, ∃ p ∈ ps, f p = .ok c := by
  intro ps
  induction ps with
  | nil =>
    intro ns h c hc
    simp only [parseChildrenM] at h
    injection h with h
    subst h
    exact absurd hc (List.not_mem_nil c)
  | cons p ps ih =>
    intro ns h c hc
    simp only [parseChildrenM] at h
    cases hf : f p with
    | error e => rw [hf] at h; exact Except.noConfusion h
    | ok n =>
      rw [hf] at h
      cases hrest : parseChildrenM f ps with
      | error e => rw [hrest] at h; exact Except.noConfusion h
      | ok ns' =>
        rw [hrest] at h
        injection h with h
        subst h
        rcases List.mem_cons.mp hc with rfl | hc2
        · exact ⟨p, List.mem_cons_self _ _, hf⟩
        · obtain ⟨q, hq, hfq⟩ := ih hrest c hc2
          exact ⟨q, List.mem_cons_of_mem _ hq, hfq⟩

/-- if each child parse can be reproduced under another lookup table with
the same shape and hierarchy, so can the whole child list. -/
theorem parseChildrenM_congr {f1 f2 : List Char → Except ParseError D3MNode}
    {G : D3MNode → D3Node} {H : D3MNode → CNode} :
    ∀ {ps : List (List Char)} {ns : List D3MNode}, parseChildrenM f1 ps = .ok ns →
      (∀ p ∈ ps, ∀ u, f1 p = .ok u →
        ∃ u2, f2 p = .ok u2 ∧ G u2 = G u ∧ H u2 = H u) →
      ∃ ns2, parseChildrenM f2 ps = .ok ns2
        ∧ ns2.map G = ns.map G ∧ ns2.map H = ns.map H := by
  intro ps
  induction ps with
  | nil =>
    intro ns h _
    simp only [parseChildrenM] at h
    injection h with h
    subst h
    exact ⟨[], rfl, rfl, rfl⟩
  | cons p ps ih =>
    intro ns h hall
    simp only [parseChildrenM] at h
    cases hf : f1 p with
    | error e => rw [hf] at h; exact Except.noConfusion h
    | ok n =>
      rw [hf] at h
      cases hrest : parseChildrenM f1 ps with
      | error e => rw [hrest] at h; exact Except.noConfusion h
      | ok ns' =>
        rw [hrest] at h
        injection h with h
        subst h
        obtain ⟨u2, hu2, hG, hH⟩ := hall p (List.mem_cons_self _ _) n hf
        obtain ⟨ns2, hns2, hGs, hHs⟩ :=
          ih hrest (fun q hq => hall q (List.mem_cons_of_mem _ hq))
        refine ⟨u2 :: ns2, ?_, ?_, ?_⟩
        · simp only [parseChildrenM, hu2, hns2]
        · simp only [List.map_cons, hG, hGs]
        · simp only [List.map_cons, hH, hHs]

theorem parseMeta_leaf_metadata :
    ∀ (fuel : Nat) (cs : List Char) (m : TreeData) (t : D3MNode),
      parseNodeMetaF m fuel cs = .ok t →
      ∀ (nm : List Char) (v : Option JsNum) (md : MetaRec),
        InD3M (.leaf nm v md) t → md = metaFor m nm := by
  intro fuel
  induction fuel with
  | zero => intro cs m t h; exact Except.noConfusion h
  | succ fuel ih =>
    intro cs m t h nm v md hin
    simp only [parseNodeMetaF] at h
    by_cases hmem : '(' ∈ cs
    · rw [if_pos hmem] at h
      cases hcm : cladeMatch cs with
      | none => rw [hcm] at h; exact Except.noConfusion h
      | some cr =>
        rw [hcm] at h
        obtain ⟨c, r⟩ := cr
        simp only [] at h
        cases hpc : parseChildrenM (fun p => parseNodeMetaF m fuel p) (childPieces c) with
        | error e => rw [hpc] at h; exact Except.noConfusion h
        | ok children =>
          rw [hpc] at h
          injection h with h
          subst h
          cases hin with
          | there nm' v' cs' c' n hc' hin' =>
            obtain ⟨p, hp, hfp⟩ := parseChildrenM_mem hpc c' hc'
            exact ih p m c' hfp nm v md hin'
    · rw [if_neg hmem] at h
      injection h with h
      subst h
      cases hin with
      | here =>
        exact rfl
  -- the `here` case of the leaf branch forces nm to be the clean name

theorem parseMeta_shape_independent :
    ∀ (fuel : Nat) (cs : List Char) (m m2 : TreeData) (t : D3MNode),
      parseNodeMetaF m fuel cs = .ok t →
      ∃ t2, parseNodeMetaF m2 fuel cs = .ok t2
        ∧ stripMetaF fuel t2 = stripMetaF fuel t
        ∧ toHierarchyMetaF fuel t2 = toHierarchyMetaF fuel t := by
  intro fuel
  induction fuel with
  | zero => intro cs m m2 t h; exact Except.noConfusion h
  | succ fuel ih =>
    intro cs m m2 t h
    simp only [parseNodeMetaF] at h
    by_cases hmem : '(' ∈ cs
    · rw [if_pos hmem] at h
      cases hcm : cladeMatch cs with
      | none => rw [hcm] at h; exact Except.noConfusion h
      | some cr =>
        rw [hcm] at h
        obtain ⟨c, r⟩ := cr
        simp only [] at h
        cases hpc : parseChildrenM (fun p => parseNodeMetaF m fuel p) (childPieces c) with
        | error e => rw [hpc] at h; exact Except.noConfusion h
        | ok children =>
          rw [hpc] at h
          injection h with h
          subst h
          obtain ⟨ns2, hns2, hGs, hHs⟩ :=
            parseChildrenM_congr hpc (fun p _ u hu => ih p m m2 u hu)
          refine ⟨.clade (cladeName r) (trailerValue r) ns2, ?_, ?_, ?_⟩
          · simp only [parseNodeMetaF, if_pos hmem, hcm, hns2]
          · simp only [stripMetaF, hGs]
          · simp only [toHierarchyMetaF, hHs]
    · rw [if_neg hmem] at h
      injection h with h
      subst h
      refine ⟨.leaf (trimWs (leafName cs)) (leafValue cs)
        (metaFor m2 (trimWs (leafName cs))), ?_, rfl, rfl⟩
      simp only [parseNodeMetaF, if_neg hmem]

/-- C8: for every successful metadata parse, (i) each leaf's metadata is
exactly the four lookups at the uppercased leaf name — in particular a
leaf whose name is missing from the genome table has `metadata.genome`
absent (`none`, not zero); and (ii) under any other lookup table the
parse still succeeds with the same shape and the same hierarchy, so
layout and link-geometry generation (which consume only the hierarchy)
succeed unchanged for the whole tree. -/
theorem claim8_missing_metadata_is_absent
    (fuel : Nat) (cs : List Char) (m : TreeData) (t : D3MNode)
    (h : parseNodeMetaF m fuel cs = .ok t) :
    (∀ (nm : List Char) (v : Option JsNum) (md : MetaRec),
        InD3M (.leaf nm v md) t → md = metaFor m nm)
    ∧ (∀ (nm : List Char) (v : Option JsNum) (md : MetaRec),
        InD3M (.leaf nm v md) t → m.genomes (toUpperList nm) = none → md.genome = none)
    ∧ ∀ m2 : TreeData, ∃ t2, parseNodeMetaF m2 fuel cs = .ok t2
        ∧ stripMetaF fuel t2 = stripMetaF fuel t
        ∧ toHierarchyMetaF fuel t2 = toHierarchyMetaF fuel t := by
  refine ⟨fun nm v md hin => parseMeta_leaf_metadata fuel cs m t h nm v md hin,
    fun nm v md hin hg => ?_, fun m2 => parseMeta_shape_independent fuel cs m m2 t h⟩
  rw [parseMeta_leaf_metadata fuel cs m t h nm v md hin]
  simp only [metaFor, hg]

/-- C8 witness: with every lookup table empty, the leaf `X` of `(X,B)`
gets an all-absent metadata record, and re-parsing under any other table
preserves shape and hierarchy. -/
theorem claim8_witness :
    (MetaRec.mk none none none none
      = metaFor ⟨fun _ => none, fun _ => none, fun _ => none, fun _ => none⟩ "X".toList)
    ∧ ∃ t2, parseNodeMetaF ⟨fun _ => none, fun _ => none, fun _ => none, fun _ => none⟩ 6
          "(X,B)".toList = .ok t2
        ∧ stripMetaF 6 t2 = stripMetaF 6
            (.clade "internal".toList none
              [.leaf "X".toList none ⟨none, none, none, none⟩,
               .leaf "B".toList none ⟨none, none, none, none⟩])
        ∧ toHierarchyMetaF 6 t2 = toHierarchyMetaF 6
            (.clade "internal".toList none
              [.leaf "X".toList none ⟨none, none, none, none⟩,
               .leaf "B".toList none ⟨none, none, none, none⟩]) := by
  have happ := claim8_missing_metadata_is_absent 6 "(X,B)".toList
    ⟨fun _ => none, fun _ => none, fun _ => none, fun _ => none⟩
    (.clade "internal".toList none
      [.leaf "X".toList none ⟨none, none, none, none⟩,
       .leaf "B".toList none ⟨none, none, none, none⟩]) rfl
  exact ⟨happ.1 "X".toList none ⟨none, none, none, none⟩
      (InD3M.there _ _ _ _ _ (List.mem_cons_self _ _) (InD3M.here _)),
    happ.2.2 ⟨fun _ => none, fun _ => none, fun _ => none, fun _ => none⟩⟩

/-! ## Layout shape lemmas

The cluster layout reads only the shape of its input (names and
children); `eraseXYF` is that shape.  These lemmas say the walks neither
read nor change shape, which drives both the idempotence claim (C9) and
fuel bookkeeping for C4/C7. -/

theorem heightOkF_eraseXYF :
    ∀ (fuel g : Nat) (t : CNode), heightOkF fuel (eraseXYF g t) = heightOkF fuel t := by
  intro fuel
  induction fuel with
  | zero => intro g t; rfl
  | succ fuel ih =>
    intro g t
    obtain ⟨nm, x, y, cs⟩ := t
    cases g with
    | zero => rfl
    | succ g =>
      simp only [eraseXYF, heightOkF]
      induction cs with
      | nil => rfl
      | cons c cs' ihc =>
        simp only [List.map_cons, List.all_cons, ih g c, ihc]

theorem heightF_eraseXYF :
    ∀ (fuel g : Nat) (t : CNode), heightF fuel (eraseXYF g t) = heightF fuel t := by
  intro fuel
  induction fuel with
  | zero => intro g t; rfl
  | succ fuel ih =>
    intro g t
    obtain ⟨nm, x, y, cs⟩ := t
    cases g with
    | zero => rfl
    | succ g =>
      cases cs with
      | nil => rfl
      | cons c cs' =>
        have htail : cs'.map (fun d => heightF fuel (eraseXYF g d))
            = cs'.map (fun d => heightF fuel d) :=
          List.map_congr_left fun d _ => ih g d
        simp only [eraseXYF, List.map_cons, heightF, List.map_map, Function.comp_def,
          ih g c, htail]

theorem heightOkF_eq_of_erase {fuel : Nat} {t₁ t₂ : CNode}
    (he : eraseXYF fuel t₁ = eraseXYF fuel t₂) :
    heightOkF fuel t₁ = heightOkF fuel t₂ := by
  rw [← heightOkF_eraseXYF fuel fuel t₁, he, heightOkF_eraseXYF]

theorem heightF_eq_of_erase {fuel : Nat} {t₁ t₂ : CNode}
    (he : eraseXYF fuel t₁ = eraseXYF fuel t₂) :
    heightF fuel t₁ = heightF fuel t₂ := by
  rw [← heightF_eraseXYF fuel fuel t₁, he, heightF_eraseXYF]

theorem eraseXYF_mapXYF (fx fy : ℚ → ℚ) :
    ∀ (fuel : Nat) (t : CNode), eraseXYF fuel (mapXYF fx fy fuel t) = eraseXYF fuel t := by
  intro fuel
  induction fuel with
  | zero => intro t; rfl
  | succ fuel ih =>
    intro t
    obtain ⟨nm, x, y, cs⟩ := t
    simp only [mapXYF, eraseXYF, List.map_map, CNode.mk.injEq, true_and]
    exact List.map_congr_left fun d _ => ih d

theorem eraseXYF_alignF (m : ℚ) (hgt : Nat) :
    ∀ (fuel d : Nat) (t : CNode), eraseXYF fuel (alignF m hgt fuel d t) = eraseXYF fuel t := by
  intro fuel
  induction fuel with
  | zero => intro d t; rfl
  | succ fuel ih =>
    intro d t
    obtain ⟨nm, x, y, cs⟩ := t
    cases cs with
    | nil => rfl
    | cons c cs' =>
      simp only [alignF, eraseXYF, List.map_map, CNode.mk.injEq, true_and]
      exact List.map_congr_left fun a _ => ih (d + 1) a

theorem eraseXYF_firstWalkF (sep : List Nat → List Nat → ℚ) :
    ∀ (fuel : Nat) (t : CNode) (p : List Nat) (st : WalkSt),
      heightOkF fuel t = true →
      eraseXYF fuel ((firstWalkF sep fuel t p st).1) = eraseXYF fuel t := by
  intro fuel
  induction fuel with
  | zero => intro t p st h; exact absurd h (by simp [heightOkF])
  | succ fuel ih =>
    intro t p st h
    obtain ⟨nm, x, y, cs⟩ := t
    simp only [heightOkF, List.all_eq_true] at h
    cases cs with
    | nil =>
      cases hp : st.prev with
      | none => simp only [firstWalkF, hp]; rfl
      | some q => simp only [firstWalkF, hp]; rfl
    | cons c cs' =>
      have hwc : ∀ (l : List CNode) (pp : List Nat) (i : Nat) (s : WalkSt),
          (∀ a ∈ l, heightOkF fuel a = true) →
          ((walkChildren (fun c p s => firstWalkF sep fuel c p s) l pp i s).1).map
              (fun a => eraseXYF fuel a)
            = l.map (fun a => eraseXYF fuel a) := by
        intro l
        induction l with
        | nil => intro pp i s _; rfl
        | cons a as ihl =>
          intro pp i s hall
          simp only [walkChildren, List.map_cons]
          rw [ih a (pp ++ [i]) s (hall a (List.mem_cons_self a as)),
            ihl pp (i + 1) _ (fun b hb => hall b (List.mem_cons_of_mem a hb))]
      simp only [firstWalkF, eraseXYF, List.map_map, CNode.mk.injEq, true_and]
      exact hwc (c :: cs') p 0 st h

theorem firstWalkF_eq_of_erase (sep : List Nat → List Nat → ℚ) :
    ∀ (fuel : Nat) (t₁ t₂ : CNode) (p : List Nat) (st : WalkSt),
      heightOkF fuel t₁ = true → eraseXYF fuel t₁ = eraseXYF fuel t₂ →
      firstWalkF sep fuel t₁ p st = firstWalkF sep fuel t₂ p st := by
  intro fuel
  induction fuel with
  | zero => intro t₁ t₂ p st h _; exact absurd h (by simp [heightOkF])
  | succ fuel ih =>
    intro t₁ t₂ p st h he
    obtain ⟨nm₁, x₁, y₁, cs₁⟩ := t₁
    obtain ⟨nm₂, x₂, y₂, cs₂⟩ := t₂
    simp only [eraseXYF, CNode.mk.injEq, true_and] at he
    obtain ⟨hnm, hcs⟩ := he
    subst hnm
    simp only [heightOkF, List.all_eq_true] at h
    have hwc : ∀ (l₁ l₂ : List CNode) (pp : List Nat) (i : Nat) (s : WalkSt),
        (∀ a ∈ l₁, heightOkF fuel a = true) →
        l₁.map (fun a => eraseXYF fuel a) = l₂.map (fun a => eraseXYF fuel a) →
        walkChildren (fun c p s => firstWalkF sep fuel c p s) l₁ pp i s
          = walkChildren (fun c p s => firstWalkF sep fuel c p s) l₂ pp i s := by
      intro l₁
      induction l₁ with
      | nil =>
        intro l₂ pp i s _ hm
        cases l₂ with
        | nil => rfl
        | cons b bs => exact absurd hm (by simp)
      | cons a as ihl =>
        intro l₂ pp i s hall hm
        cases l₂ with
        | nil => exact absurd hm (by simp)
        | cons b bs =>
          simp only [List.map_cons, List.cons.injEq] at hm
          simp only [walkChildren]
          rw [ih a b (pp ++ [i]) s (hall a (List.mem_cons_self a as)) hm.1,
            ihl bs pp (i + 1) _ (fun d hd => hall d (List.mem_cons_of_mem a hd)) hm.2]
    cases cs₁ with
    | nil =>
      cases cs₂ with
      | nil => rfl
      | cons b bs => exact absurd hcs (by simp)
    | cons c cs' =>
      cases cs₂ with
      | nil => exact absurd hcs (by simp)
      | cons d ds =>
        simp only [firstWalkF]
        rw [hwc (c :: cs') (d :: ds) p 0 st h hcs]

/-! ## Claim C9

The cluster layout reads only the shape of its input and overwrites every
coordinate, so laying out an already laid-out tree reproduces it exactly:
`layout (layout t) = layout t`.  (In the embedding the layout is a pure
function of the tree, the bounds and the separation option, so
determinism — identical inputs giving bit-identical coordinates — holds
by construction; the theorem proves the stronger statement that even the
in-place re-layout of d3's mutated hierarchy is unchanged.) -/

/-- C9: layout is idempotent — for any separation option, bounds and
tree, applying the cluster layout to its own output yields bit-identical
coordinates for every node. -/
theorem claim9_layout_idempotent (sep : List Nat → List Nat → ℚ) (fuel : Nat) (dx dy : ℚ)
    (t : CNode) (h : heightOkF fuel t = true) :
    clusterF sep fuel dx dy (clusterF sep fuel dx dy t) = clusterF sep fuel dx dy t := by
  have her : eraseXYF fuel ((firstWalkF sep fuel t [] ⟨0, none⟩).1) = eraseXYF fuel t :=
    eraseXYF_firstWalkF sep fuel t [] ⟨0, none⟩ h
  have hw1 : ∀ fx fy : ℚ → ℚ,
      firstWalkF sep fuel (mapXYF fx fy fuel ((firstWalkF sep fuel t [] ⟨0, none⟩).1)) []
          ⟨0, none⟩
        = firstWalkF sep fuel t [] ⟨0, none⟩ := by
    intro fx fy
    refine firstWalkF_eq_of_erase sep fuel _ t [] ⟨0, none⟩ ?_ ?_
    · rw [heightOkF_eq_of_erase ((eraseXYF_mapXYF fx fy fuel _).trans her)]
      exact h
    · exact (eraseXYF_mapXYF fx fy fuel _).trans her
  simp only [clusterF]
  rw [hw1]

/-- C9 witness: idempotence at a concrete two-leaf tree. -/
theorem claim9_witness :
    heightOkF 2 (CNode.mk "r".toList 0 0
        [.mk "A".toList 0 0 [], .mk "B".toList 0 0 []]) = true
    ∧ clusterF sepDefault 2 100 100
        (clusterF sepDefault 2 100 100
          (CNode.mk "r".toList 0 0 [.mk "A".toList 0 0 [], .mk "B".toList 0 0 []]))
      = clusterF sepDefault 2 100 100
          (CNode.mk "r".toList 0 0 [.mk "A".toList 0 0 [], .mk "B".toList 0 0 []]) :=
  ⟨rfl, claim9_layout_idempotent sepDefault 2 100 100
    (CNode.mk "r".toList 0 0 [.mk "A".toList 0 0 [], .mk "B".toList 0 0 []]) rfl⟩

/-! ## Claim C7

d3.cluster places an internal node at the *mean of all its children's*
lateral coordinates (`meanX` in cluster.js), which coincides with the
midpoint of the first and last children only for binary nodes.  The
general midpoint claim fails on a ternary node; the binary scenario B
holds. -/

theorem mem_nodesF_succ {n : CNode} {nm : List Char} {x y : ℚ} {cs : List CNode} {fuel : Nat} :
    n ∈ nodesF (fuel + 1) (.mk nm x y cs) ↔
      n = .mk nm x y cs ∨ ∃ c ∈ cs, n ∈ nodesF fuel c := by
  simp [nodesF]

theorem sum_map_affine (a b : ℚ) :
    ∀ l : List ℚ, (l.map (fun q => a * q + b)).sum = a * l.sum + l.length * b := by
  intro l
  induction l with
  | nil => simp
  | cons q l ih =>
    simp only [List.map_cons, List.sum_cons, ih, List.length_cons]
    push_cast
    ring

theorem meanQ_map_affine (a b : ℚ) (l : List ℚ) (hl : l ≠ []) :
    meanQ (l.map (fun q => a * q + b)) = a * meanQ l + b := by
  have hn : (l.length : ℚ) ≠ 0 := by
    simp only [ne_eq, Nat.cast_eq_zero, List.length_eq_zero]
    exact hl
  simp only [meanQ, sum_map_affine, List.length_map]
  field_simp
  ring

theorem meanQ_map_secondwalk (x0 x1 dx : ℚ) (l : List ℚ) (hl : l ≠ []) :
    meanQ (l.map (fun q => (q - x0) / (x1 - x0) * dx))
      = (meanQ l - x0) / (x1 - x0) * dx := by
  have h1 : (fun q : ℚ => (q - x0) / (x1 - x0) * dx)
      = fun q => (dx / (x1 - x0)) * q + (-(x0 * dx) / (x1 - x0)) := by
    funext q
    ring
  rw [h1, meanQ_map_affine _ _ _ hl]
  ring

/-- every internal node of the raw first-walk output has `x` equal to the
mean of its children's `x`. -/
theorem firstWalkF_mean (sep : List Nat → List Nat → ℚ) :
    ∀ (fuel : Nat) (t : CNode) (p : List Nat) (st : WalkSt),
      heightOkF fuel t = true →
      ∀ n ∈ nodesF fuel ((firstWalkF sep fuel t p st).1),
        n.children ≠ [] → n.x = meanQ (n.children.map CNode.x) := by
  intro fuel
  induction fuel with
  | zero => intro t p st h; exact absurd h (by simp [heightOkF])
  | succ fuel ih =>
    intro t p st h n hn hne
    obtain ⟨nm, x, y, cs⟩ := t
    simp only [heightOkF, List.all_eq_true] at h
    cases cs with
    | nil =>
      cases hp : st.prev with
      | none =>
        simp only [firstWalkF, hp] at hn
        rcases mem_nodesF_succ.mp hn with rfl | ⟨c, hc, -⟩
        · exact absurd rfl hne
        · exact absurd hc (List.not_mem_nil c)
      | some q =>
        simp only [firstWalkF, hp] at hn
        rcases mem_nodesF_succ.mp hn with rfl | ⟨c, hc, -⟩
        · exact absurd rfl hne
        · exact absurd hc (List.not_mem_nil c)
    | cons c cs' =>
      have hwc : ∀ (l : List CNode) (pp : List Nat) (i : Nat) (s : WalkSt),
          (∀ a ∈ l, heightOkF fuel a = true) →
          ∀ u ∈ (walkChildren (fun c p s => firstWalkF sep fuel c p s) l pp i s).1,
            ∀ n' ∈ nodesF fuel u, n'.children ≠ [] →
              n'.x = meanQ (n'.children.map CNode.x) := by
        intro l
        induction l with
        | nil => intro pp i s _ u hu; exact absurd hu (List.not_mem_nil u)
        | cons a as ihl =>
          intro pp i s hall u hu
          simp only [walkChildren] at hu
          rcases List.mem_cons.mp hu with rfl | hu2
          · exact ih a (pp ++ [i]) s (hall a (List.mem_cons_self a as))
          · exact ihl pp (i + 1) _ (fun b hb => hall b (List.mem_cons_of_mem a hb)) _ hu2
      simp only [firstWalkF] at hn
      rcases mem_nodesF_succ.mp hn with rfl | ⟨u, hu, hn2⟩
      · exact rfl
      · exact hwc (c :: cs') p 0 st h u hu n hn2 hne

/-- the second walk (an affine map on `x`) preserves the mean property. -/
theorem mapXYF_mean (x0 x1 dx : ℚ) (fy : ℚ → ℚ) :
    ∀ (fuel : Nat) (t : CNode), heightOkF fuel t = true →
      (∀ n ∈ nodesF fuel t, n.children ≠ [] → n.x = meanQ (n.children.map CNode.x)) →
      ∀ n ∈ nodesF fuel (mapXYF (fun q => (q - x0) / (x1 - x0) * dx) fy fuel t),
        n.children ≠ [] → n.x = meanQ (n.children.map CNode.x) := by
  intro fuel
  induction fuel with
  | zero => intro t h; exact absurd h (by simp [heightOkF])
  | succ fuel ih =>
    intro t h hall n hn hne
    obtain ⟨nm, x, y, cs⟩ := t
    simp only [heightOkF, List.all_eq_true] at h
    simp only [mapXYF] at hn
    rcases mem_nodesF_succ.mp hn with rfl | ⟨u, hu, hn2⟩
    · -- the mapped root: its children are the mapped children
      cases cs with
      | nil => exact absurd rfl hne
      | cons c cs' =>
        have hfuel : fuel ≠ 0 := by
          intro h0
          subst h0
          exact absurd (h c (List.mem_cons_self c cs')) (by simp [heightOkF])
        obtain ⟨g, rfl⟩ := Nat.exists_eq_succ_of_ne_zero hfuel
        have hx : x = meanQ ((c :: cs').map CNode.x) :=
          hall _ (mem_nodesF_succ.mpr (Or.inl rfl)) (by simp [CNode.children])
        have hmap : ((c :: cs').map (fun a => mapXYF (fun q => (q - x0) / (x1 - x0) * dx)
              fy (g + 1) a)).map CNode.x
            = ((c :: cs').map CNode.x).map (fun q => (q - x0) / (x1 - x0) * dx) := by
          simp only [List.map_map]
          refine List.map_congr_left fun a _ => ?_
          obtain ⟨nm', x', y', cs''⟩ := a
          rfl
        simp only [CNode.children, CNode.x, hmap]
        rw [meanQ_map_secondwalk _ _ _ _ (by simp), ← hx]
    · obtain ⟨a, ha, rfl⟩ := List.mem_map.mp hu
      exact ih a (h a ha)
        (fun n' hn' hne' => hall n' (mem_nodesF_succ.mpr (Or.inr ⟨a, ha, hn'⟩)) hne') n hn2 hne

/-- C7: the amended statement — in every computed layout each internal
node's lateral coordinate is the *mean of all its children's* lateral
coordinates (for binary internal nodes this is the midpoint of the first
and last child); and concretely, `(A,(B,C));` in dendrogram mode gives
three distinct leaf `x` values in order `A < B < C`, with the internal
node `(B,C)` at the midpoint of `B.x` and `C.x`. -/
theorem claim7_internal_x_mean_of_children :
    (∀ (fuel : Nat) (dx dy : ℚ) (t : CNode), heightOkF fuel t = true →
      ∀ n ∈ nodesF fuel (dendroLayout fuel dx dy t), n.children ≠ [] →
        n.x = meanQ (n.children.map CNode.x))
    ∧ (newickToD3 "(A,(B,C));".toList).map
        (fun d => dendroLayout 4 480 1080 (toHierarchyF 4 d))
      = .ok (.mk "internal".toList 216 0
          [.mk "A".toList 96 1080 [],
           .mk "internal".toList 336 540
             [.mk "B".toList 288 1080 [], .mk "C".toList 384 1080 []]])
    ∧ (96 : ℚ) < 288 ∧ (288 : ℚ) < 384 ∧ (336 : ℚ) = (288 + 384) / 2 := by
  refine ⟨?_, ?_, by norm_num, by norm_num, by norm_num⟩
  · intro fuel dx dy t h n hn hne
    have her : eraseXYF fuel ((firstWalkF sepDefault fuel t [] ⟨0, none⟩).1)
        = eraseXYF fuel t :=
      eraseXYF_firstWalkF sepDefault fuel t [] ⟨0, none⟩ h
    have hok : heightOkF fuel ((firstWalkF sepDefault fuel t [] ⟨0, none⟩).1) = true := by
      rw [heightOkF_eq_of_erase her]
      exact h
    simp only [dendroLayout, clusterF] at hn
    exact mapXYF_mean _ _ _ _ fuel _ hok
      (firstWalkF_mean sepDefault fuel t [] ⟨0, none⟩ h) n hn hne
  · have hp : newickToD3 "(A,(B,C));".toList
        = .ok (.clade "internal".toList none
            [.leaf "A".toList none,
             .clade "internal".toList none [.leaf "B".toList none, .leaf "C".toList none]]) :=
      rfl
    rw [hp]
    norm_num [Except.map, toHierarchyF, dendroLayout, clusterF, firstWalkF, walkChildren,
      leafLeftF, leafRightF, mapXYF, meanQ, sepDefault, CNode.x, CNode.y]

/-- C7 counterexample: on `((A,B),C,D);` (a ternary root) the root's
lateral coordinate is 280, but the midpoint of its first and last
children's lateral coordinates is `(120 + 400)/2 = 260 ≠ 280` — the
midpoint-of-extremes claim is false, the mean of all three children
`(120 + 320 + 400)/3 = 280` is what the layout produces. -/
theorem claim7_midpoint_counterexample :
    (newickToD3 "((A,B),C,D);".toList).map
        (fun d => dendroLayout 13 480 1080 (toHierarchyF 13 d))
      = .ok (.mk "internal".toList 280 0
          [.mk "internal".toList 120 540
            [.mk "A".toList 80 1080 [], .mk "B".toList 160 1080 []],
           .mk "C".toList 320 1080 [],
           .mk "D".toList 400 1080 []])
    ∧ (280 : ℚ) ≠ (120 + 400) / 2
    ∧ (280 : ℚ) = (120 + 320 + 400) / 3 := by
  refine ⟨?_, by norm_num, by norm_num⟩
  have hp : newickToD3 "((A,B),C,D);".toList
      = .ok (.clade "internal".toList none
          [.clade "internal".toList none [.leaf "A".toList none, .leaf "B".toList none],
           .leaf "C".toList none, .leaf "D".toList none]) :=
    rfl
  rw [hp]
  norm_num [Except.map, toHierarchyF, dendroLayout, clusterF, firstWalkF, walkChildren,
    leafLeftF, leafRightF, mapXYF, meanQ, sepDefault, CNode.x, CNode.y]

/-- C7 witness: the general mean property applied to the concrete layout
of scenario B, at the internal node `(B,C)`. -/
theorem claim7_witness :
    heightOkF 4 (CNode.mk "internal".toList 0 0
        [.mk "A".toList 0 0 [],
         .mk "internal".toList 0 0 [.mk "B".toList 0 0 [], .mk "C".toList 0 0 []]]) = true
    ∧ (CNode.mk "internal".toList 336 540
        [.mk "B".toList 288 1080 [], .mk "C".toList 384 1080 []])
        ∈ nodesF 4 (dendroLayout 4 480 1080
          (CNode.mk "internal".toList 0 0
            [.mk "A".toList 0 0 [],
             .mk "internal".toList 0 0 [.mk "B".toList 0 0 [], .mk "C".toList 0 0 []]]))
    ∧ (CNode.mk "internal".toList 336 540
        [.mk "B".toList 288 1080 [], .mk "C".toList 384 1080 []]).x
      = meanQ ((CNode.mk "internal".toList 336 540
          [.mk "B".toList 288 1080 [], .mk "C".toList 384 1080 []]).children.map CNode.x) := by
  have hL : dendroLayout 4 480 1080
      (CNode.mk "internal".toList 0 0
        [.mk "A".toList 0 0 [],
         .mk "internal".toList 0 0 [.mk "B".toList 0 0 [], .mk "C".toList 0 0 []]])
      = .mk "internal".toList 216 0
          [.mk "A".toList 96 1080 [],
           .mk "internal".toList 336 540
             [.mk "B".toList 288 1080 [], .mk "C".toList 384 1080 []]] := by
    norm_num [dendroLayout, clusterF, firstWalkF, walkChildren, leafLeftF, leafRightF,
      mapXYF, meanQ, sepDefault, CNode.x, CNode.y]
  have hmem : (CNode.mk "internal".toList 336 540
      [.mk "B".toList 288 1080 [], .mk "C".toList 384 1080 []])
      ∈ nodesF 4 (dendroLayout 4 480 1080
        (CNode.mk "internal".toList 0 0
          [.mk "A".toList 0 0 [],
           .mk "internal".toList 0 0 [.mk "B".toList 0 0 [], .mk "C".toList 0 0 []]])) := by
    rw [hL]
    simp [nodesF]
  exact ⟨rfl, hmem,
    claim7_internal_x_mean_of_children.1 4 480 1080
      (CNode.mk "internal".toList 0 0
        [.mk "A".toList 0 0 [],
         .mk "internal".toList 0 0 [.mk "B".toList 0 0 [], .mk "C".toList 0 0 []]])
      rfl _ hmem (by simp [CNode.children])⟩

/-! ## Claim C4

The leaf-alignment post-processing of `placeholder.tsx` sets every leaf's
`y` to `maxX` (the maximum `y` of the cluster output) and every internal
node's `y` to `maxX * depth / height`; the maximum `y` of the resulting
tree is still `maxX`, so every leaf sits at the single maximum depth
value. -/

theorem mem_nodesWithDepthF_succ {p : CNode × Nat} {nm : List Char} {x y : ℚ}
    {cs : List CNode} {fuel d : Nat} :
    p ∈ nodesWithDepthF (fuel + 1) d (.mk nm x y cs) ↔
      p = (.mk nm x y cs, d) ∨ ∃ c ∈ cs, p ∈ nodesWithDepthF fuel (d + 1) c := by
  simp [nodesWithDepthF]

theorem le_foldl_max {α : Type} [LinearOrder α] :
    ∀ (l : List α) (b : α), b ≤ l.foldl max b := by
  intro l
  induction l with
  | nil => intro b; exact le_refl b
  | cons a as ih => intro b; exact le_trans (le_max_left b a) (ih (max b a))

theorem mem_le_foldl_max {α : Type} [LinearOrder α] :
    ∀ (l : List α) (a b : α), a ∈ l → a ≤ l.foldl max b := by
  intro l
  induction l with
  | nil => intro a b h; exact absurd h (List.not_mem_nil a)
  | cons c cs ih =>
    intro a b h
    rcases List.mem_cons.mp h with rfl | h2
    · exact le_trans (le_max_right b a) (le_foldl_max cs (max b a))
    · exact ih a (max b c) h2

theorem foldl_max_attained {α : Type} [LinearOrder α] :
    ∀ (l : List α) (b : α), l.foldl max b = b ∨ l.foldl max b ∈ l := by
  intro l
  induction l with
  | nil => intro b; exact Or.inl rfl
  | cons a as ih =>
    intro b
    rcases ih (max b a) with h | h
    · rcases max_cases b a with ⟨hm, _⟩ | ⟨hm, _⟩
      · exact Or.inl (by rw [List.foldl_cons, h, hm])
      · refine Or.inr ?_
        rw [List.foldl_cons, h, hm]
        exact List.mem_cons_self a as
    · exact Or.inr (List.mem_cons_of_mem a h)

theorem y_le_maxDescYF : ∀ (fuel : Nat) (t : CNode), t.y ≤ maxDescYF fuel t := by
  intro fuel t
  cases fuel with
  | zero => exact le_refl _
  | succ g =>
    obtain ⟨nm, x, y, cs⟩ := t
    exact le_foldl_max _ _

theorem nodesWithDepthF_y_le_maxDescYF :
    ∀ (fuel d : Nat) (t : CNode), ∀ p ∈ nodesWithDepthF fuel d t,
      p.1.y ≤ maxDescYF fuel t := by
  intro fuel
  induction fuel with
  | zero => intro d t p hp; exact absurd hp (List.not_mem_nil p)
  | succ fuel ih =>
    intro d t p hp
    obtain ⟨nm, x, y, cs⟩ := t
    rcases mem_nodesWithDepthF_succ.mp hp with rfl | ⟨c, hc, hp2⟩
    · exact le_foldl_max _ _
    · exact le_trans (ih (d + 1) c p hp2)
        (mem_le_foldl_max _ _ _ (List.mem_map_of_mem _ hc))

theorem maxDescYF_attained :
    ∀ (fuel d : Nat) (t : CNode), heightOkF fuel t = true →
      ∃ p ∈ nodesWithDepthF fuel d t, p.1.y = maxDescYF fuel t := by
  intro fuel
  induction fuel with
  | zero => intro d t h; exact absurd h (by simp [heightOkF])
  | succ fuel ih =>
    intro d t h
    obtain ⟨nm, x, y, cs⟩ := t
    simp only [heightOkF, List.all_eq_true] at h
    rcases foldl_max_attained ((cs.map fun c => maxDescYF fuel c)) y with hm | hm
    · exact ⟨(.mk nm x y cs, d), mem_nodesWithDepthF_succ.mpr (Or.inl rfl), hm.symm⟩
    · obtain ⟨c, hc, heq⟩ := List.mem_map.mp hm
      obtain ⟨p, hp, hpy⟩ := ih (d + 1) c (h c hc)
      exact ⟨p, mem_nodesWithDepthF_succ.mpr (Or.inr ⟨c, hc, hp⟩), hpy.trans heq⟩

theorem exists_leaf_nodesWithDepthF :
    ∀ (fuel d : Nat) (t : CNode), heightOkF fuel t = true →
      ∃ p ∈ nodesWithDepthF fuel d t, p.1.children = [] := by
  intro fuel
  induction fuel with
  | zero => intro d t h; exact absurd h (by simp [heightOkF])
  | succ fuel ih =>
    intro d t h
    obtain ⟨nm, x, y, cs⟩ := t
    simp only [heightOkF, List.all_eq_true] at h
    cases cs with
    | nil => exact ⟨(.mk nm x y [], d), mem_nodesWithDepthF_succ.mpr (Or.inl rfl), rfl⟩
    | cons c cs' =>
      obtain ⟨p, hp, hpl⟩ := ih (d + 1) c (h c (List.mem_cons_self c cs'))
      exact ⟨p, mem_nodesWithDepthF_succ.mpr
        (Or.inr ⟨c, List.mem_cons_self c cs', hp⟩), hpl⟩

theorem depth_lt_of_internal :
    ∀ (fuel d : Nat) (t : CNode), heightOkF fuel t = true →
      ∀ p ∈ nodesWithDepthF fuel d t, p.1.children ≠ [] →
        p.2 < d + heightF fuel t := by
  intro fuel
  induction fuel with
  | zero => intro d t h; exact absurd h (by simp [heightOkF])
  | succ fuel ih =>
    intro d t h p hp hne
    obtain ⟨nm, x, y, cs⟩ := t
    simp only [heightOkF, List.all_eq_true] at h
    rcases mem_nodesWithDepthF_succ.mp hp with rfl | ⟨c, hc, hp2⟩
    · cases cs with
      | nil => exact absurd rfl hne
      | cons c cs' =>
        simp only [heightF]
        omega
    · have hlt := ih (d + 1) c (h c hc) p hp2 hne
      cases cs with
      | nil => exact absurd hc (List.not_mem_nil c)
      | cons c0 cs0 =>
        have hle : heightF fuel c ≤ ((c0 :: cs0).map fun a => heightF fuel a).foldl max 0 :=
          mem_le_foldl_max _ _ _ (List.mem_map_of_mem _ hc)
        simp only [heightF]
        omega

theorem alignF_y_assignment (M : ℚ) (H : Nat) :
    ∀ (fuel d : Nat) (t : CNode), heightOkF fuel t = true →
      ∀ p ∈ nodesWithDepthF fuel d (alignF M H fuel d t),
        (p.1.children = [] → p.1.y = M)
        ∧ (p.1.children ≠ [] → p.1.y = M * ((p.2 : ℚ) / (H : ℚ))) := by
  intro fuel
  induction fuel with
  | zero => intro d t h; exact absurd h (by simp [heightOkF])
  | succ fuel ih =>
    intro d t h p hp
    obtain ⟨nm, x, y, cs⟩ := t
    simp only [heightOkF, List.all_eq_true] at h
    cases cs with
    | nil =>
      simp only [alignF] at hp
      rcases mem_nodesWithDepthF_succ.mp hp with rfl | ⟨c, hc, -⟩
      · exact ⟨fun _ => rfl, fun hne => absurd rfl hne⟩
      · exact absurd hc (List.not_mem_nil c)
    | cons c cs' =>
      simp only [alignF] at hp
      rcases mem_nodesWithDepthF_succ.mp hp with rfl | ⟨a, ha, hp2⟩
      · refine ⟨fun he => absurd he (by simp [CNode.children]), fun _ => rfl⟩
      · obtain ⟨b, hb, rfl⟩ := List.mem_map.mp ha
        exact ih (d + 1) b (h b hb) p hp2

theorem mapXYF_y_succ (fx fy : ℚ → ℚ) (g : Nat) (t : CNode) :
    (mapXYF fx fy (g + 1) t).y = fy t.y := by
  obtain ⟨nm, x, y, cs⟩ := t
  rfl

theorem clusterF_root_y (sep : List Nat → List Nat → ℚ) (fuel : Nat) (dx dy : ℚ)
    (t : CNode) (h : heightOkF fuel t = true) :
    (clusterF sep fuel dx dy t).y = 0 := by
  cases fuel with
  | zero => exact absurd h (by simp [heightOkF])
  | succ g =>
    simp only [clusterF]
    rw [mapXYF_y_succ]
    by_cases hry : (firstWalkF sep (g + 1) t [] ⟨0, none⟩).1.y ≠ 0
    · rw [if_pos hry, div_self hry]
      ring
    · rw [if_neg hry]
      ring

theorem heightOkF_clusterF (sep : List Nat → List Nat → ℚ) (fuel : Nat) (dx dy : ℚ)
    (t : CNode) (h : heightOkF fuel t = true) :
    heightOkF fuel (clusterF sep fuel dx dy t) = true := by
  simp only [clusterF]
  rw [heightOkF_eq_of_erase ((eraseXYF_mapXYF _ _ fuel _).trans
    (eraseXYF_firstWalkF sep fuel t [] ⟨0, none⟩ h))]
  exact h

theorem heightOkF_alignedLayout (fuel : Nat) (dx dy : ℚ) (t : CNode)
    (h : heightOkF fuel t = true) :
    heightOkF fuel (alignedLayout fuel dx dy t) = true := by
  simp only [alignedLayout]
  rw [heightOkF_eq_of_erase (eraseXYF_alignF _ _ fuel 0 _)]
  exact heightOkF_clusterF sepOne fuel dx dy t h

/-- C4: in the aligned layout of `placeholder.tsx`, writing `M` for the
single maximum `y` value occurring in the final tree and `H` for the
tree height, every leaf has `y = M` and every internal node at depth `d`
has `y = M * (d / H)`. -/
theorem claim4_leaves_aligned_to_max (fuel : Nat) (dx dy : ℚ) (t : CNode)
    (h : heightOkF fuel t = true) :
    ∀ p ∈ nodesWithDepthF fuel 0 (alignedLayout fuel dx dy t),
      (p.1.children = [] → p.1.y = maxDescYF fuel (alignedLayout fuel dx dy t))
      ∧ (p.1.children ≠ [] →
          p.1.y = maxDescYF fuel (alignedLayout fuel dx dy t)
            * ((p.2 : ℚ) / (heightF fuel (alignedLayout fuel dx dy t) : ℚ))) := by
  have hokr : heightOkF fuel (clusterF sepOne fuel dx dy t) = true :=
    heightOkF_clusterF sepOne fuel dx dy t h
  have hokL : heightOkF fuel (alignedLayout fuel dx dy t) = true :=
    heightOkF_alignedLayout fuel dx dy t h
  have hH : heightF fuel (alignedLayout fuel dx dy t)
      = heightF fuel (clusterF sepOne fuel dx dy t) := by
    simp only [alignedLayout]
    exact heightF_eq_of_erase (eraseXYF_alignF _ _ fuel 0 _)
  have hassign := alignF_y_assignment (maxDescYF fuel (clusterF sepOne fuel dx dy t))
    (heightF fuel (clusterF sepOne fuel dx dy t)) fuel 0
    (clusterF sepOne fuel dx dy t) hokr
  have hM0 : (0 : ℚ) ≤ maxDescYF fuel (clusterF sepOne fuel dx dy t) := by
    have h1 := y_le_maxDescYF fuel (clusterF sepOne fuel dx dy t)
    rwa [clusterF_root_y sepOne fuel dx dy t h] at h1
  -- the maximum y of the aligned tree equals the maximum y of the cluster output
  have hMeq : maxDescYF fuel (alignedLayout fuel dx dy t)
      = maxDescYF fuel (clusterF sepOne fuel dx dy t) := by
    apply le_antisymm
    · obtain ⟨p, hp, hpy⟩ := maxDescYF_attained fuel 0 (alignedLayout fuel dx dy t) hokL
      rw [← hpy]
      by_cases hne : p.1.children = []
      · rw [(hassign p hp).1 hne]
      · rw [(hassign p hp).2 hne]
        have hd : p.2 < 0 + heightF fuel (alignedLayout fuel dx dy t) :=
          depth_lt_of_internal fuel 0 (alignedLayout fuel dx dy t) hokL p hp hne
        rw [hH] at hd
        have hHpos : 0 < heightF fuel (clusterF sepOne fuel dx dy t) := by omega
        have hdiv : ((p.2 : ℚ) / (heightF fuel (clusterF sepOne fuel dx dy t) : ℚ)) ≤ 1 := by
          rw [div_le_one (by exact_mod_cast hHpos)]
          exact_mod_cast Nat.le_of_lt (by omega)
        have hdiv0 : (0 : ℚ) ≤ (p.2 : ℚ) / (heightF fuel (clusterF sepOne fuel dx dy t) : ℚ) :=
          div_nonneg (by positivity) (by positivity)
        calc maxDescYF fuel (clusterF sepOne fuel dx dy t)
              * ((p.2 : ℚ) / (heightF fuel (clusterF sepOne fuel dx dy t) : ℚ))
            ≤ maxDescYF fuel (clusterF sepOne fuel dx dy t) * 1 :=
              mul_le_mul_of_nonneg_left hdiv hM0
          _ = maxDescYF fuel (clusterF sepOne fuel dx dy t) := mul_one _
    · obtain ⟨p, hp, hpl⟩ := exists_leaf_nodesWithDepthF fuel 0
        (alignedLayout fuel dx dy t) hokL
      have h1 := (hassign p hp).1 hpl
      have h2 := nodesWithDepthF_y_le_maxDescYF fuel 0 (alignedLayout fuel dx dy t) p hp
      rw [h1] at h2
      exact h2
  intro p hp
  refine ⟨fun hne => ?_, fun hne => ?_⟩
  · rw [hMeq]
    exact (hassign p hp).1 hne
  · rw [hMeq, hH]
    exact (hassign p hp).2 hne

/-- C4 witness: the alignment invariant at a concrete two-leaf tree laid
out with `dx = dy = 10`: the leaf `A` sits at the maximum `y` (10) and
the root (internal, depth 0) at `10 * (0/1) = 0`. -/
theorem claim4_witness :
    heightOkF 2 (CNode.mk "r".toList 0 0
        [.mk "A".toList 0 0 [], .mk "B".toList 0 0 []]) = true
    ∧ ((CNode.mk "A".toList (5/2) 10 [], 1)
        ∈ nodesWithDepthF 2 0 (alignedLayout 2 10 10
          (CNode.mk "r".toList 0 0 [.mk "A".toList 0 0 [], .mk "B".toList 0 0 []])))
    ∧ (CNode.mk "A".toList (5/2) 10 []).y
      = maxDescYF 2 (alignedLayout 2 10 10
          (CNode.mk "r".toList 0 0 [.mk "A".toList 0 0 [], .mk "B".toList 0 0 []])) := by
  have hL : alignedLayout 2 10 10
      (CNode.mk "r".toList 0 0 [.mk "A".toList 0 0 [], .mk "B".toList 0 0 []])
      = .mk "r".toList 5 0 [.mk "A".toList (5/2) 10 [], .mk "B".toList (15/2) 10 []] := by
    norm_num [alignedLayout, clusterF, firstWalkF, walkChildren, leafLeftF, leafRightF,
      mapXYF, meanQ, sepOne, alignF, maxDescYF, heightF, CNode.x, CNode.y]
  have hmem : (CNode.mk "A".toList (5/2) 10 [], 1)
      ∈ nodesWithDepthF 2 0 (alignedLayout 2 10 10
        (CNode.mk "r".toList 0 0 [.mk "A".toList 0 0 [], .mk "B".toList 0 0 []])) := by
    rw [hL]
    simp [nodesWithDepthF]
  exact ⟨rfl, hmem,
    (claim4_leaves_aligned_to_max 2 10 10
      (CNode.mk "r".toList 0 0 [.mk "A".toList 0 0 [], .mk "B".toList 0 0 []]) rfl
      (CNode.mk "A".toList (5/2) 10 [], 1) hmem).1 rfl⟩

end EPlant
